import Mathlib

/-!
Verification of the snapshot-isolation subsystem of the
fjall-with-clocks-example repository: the monotonic sequence-number counter
(src/vendor/lsm-tree/src/seqno.rs and its copy in src/src/main.rs), and the
snapshot / merge-iterator / recovery behaviour exercised by
src/src/main.rs, src/vendor/lsm-tree/tests/tree_disjoint_iter.rs and
src/vendor/lsm-tree/tests/recover_from_different_folder.rs.

Rust u64 / u128 arithmetic is embedded as natural numbers reduced modulo
2^64 / 2^128 at the operations where the source can overflow.
-/

namespace FjallClocks

/-- The modulus of Rust `u64` arithmetic. -/
def U64 : ℕ := 2 ^ 64

/-- The modulus of Rust `u128` arithmetic. -/
def U128 : ℕ := 2 ^ 128

/-! ## The clock (seqno.rs lines 119-126, duplicated in main.rs lines 21-28) -/

/-- Embeds `current_monotonic_ns`: `start_epoch_ns` (a `u128`, from
`Duration::as_nanos`) plus `elapsed_ns` (a `u128`) is computed in `u128`
arithmetic (wrapping modulo 2^128) and then cast `as u64`, which truncates
modulo 2^64.  There is no saturation and no overflow check in the source. -/
def current_monotonic_ns (start_epoch_ns elapsed_ns : ℕ) : ℕ :=
  ((start_epoch_ns % U128 + elapsed_ns % U128) % U128) % U64

/-! ## Epoch-offset initialization (seqno.rs lines 16-29, main.rs lines 6-19) -/

/-- One reading of the system clocks at `get_epoch_offset`'s first use:
`instant` models `Instant::now()` (monotonic nanoseconds), `sinceEpoch`
models `SystemTime::now().duration_since(UNIX_EPOCH)`, which is `none`
exactly when the system clock reports a time before the Unix epoch. -/
structure ClockReading where
  instant : ℕ
  sinceEpoch : Option ℕ
deriving DecidableEq

/-- Embeds `get_epoch_offset`: the `OnceLock` cell starts out empty (`none`);
on first use the wall clock is read and `.expect("System time is before Unix
epoch")` aborts the initialization (modelled as `Except.error`) when the
reading fails; once a pair has been captured it is returned unchanged on
every later call and the clock is no longer consulted.  The result carries
the returned pair and the cell's new contents. -/
def get_epoch_offset (cell : Option (ℕ × ℕ)) (clock : ClockReading) :
    Except String ((ℕ × ℕ) × Option (ℕ × ℕ)) :=
  match cell with
  | some v => .ok (v, some v)
  | none =>
    match clock.sinceEpoch with
    | none => .error "System time is before Unix epoch"
    | some t => .ok ((clock.instant, t), some (clock.instant, t))

/-! ## The sequence-number counter (seqno.rs lines 60-117) -/

/-- The candidate computed by one iteration of `SequenceNumberCounter::next`
(seqno.rs line 101): `if now > last { now } else { last + 1 }`, where
`last + 1` is `u64` arithmetic and therefore wraps modulo 2^64. -/
def nextCandidate (now last : ℕ) : ℕ :=
  if now > last then now else (last + 1) % U64

/-- The environment one iteration of the `next` CAS loop runs in: `now` is
the value `current_monotonic_ns()` returns at the top of the iteration, and
`interference` is the value another thread stored into the shared atomic
between this thread's load and its compare-and-swap (`none` when no other
thread intervened). -/
structure LoopEnv where
  now : ℕ
  interference : Option ℕ
deriving DecidableEq

/-- Embeds the CAS retry loop of `SequenceNumberCounter::next` (seqno.rs
lines 97-110).  Each iteration loads `last` from the shared cell, computes
the candidate, and issues `compare_exchange(last, candidate)`; the exchange
succeeds iff the cell still holds `last` at that moment, in which case the
candidate is both installed and returned.  On failure the loop retries
against the freshly observed cell value.  The schedule bounds how many
iterations are observed; `none` means every observed iteration lost its
compare-and-swap (the loop is still spinning). -/
def nextLoop : List LoopEnv → ℕ → Option (ℕ × ℕ)
  | [], _ => none
  | e :: rest, last =>
    match e.interference with
    | none => some (nextCandidate e.now last, nextCandidate e.now last)
    | some w =>
      if w = last then some (nextCandidate e.now last, nextCandidate e.now last)
      else nextLoop rest w

/-- Modelled from the spec (§4.1 Algorithm), for comparison with `nextLoop`:
"read current timestamp `now` ...; read `last` from shared state; compute
`candidate = now if now > last else last + 1`; atomically replace `last`
with `candidate` using a compare-and-swap that retries on contention using
the freshly observed `last` each iteration", the candidate being recomputed
from that fresh `last`, and the returned value being the installed
candidate. -/
def referenceNextLoop : List LoopEnv → ℕ → Option (ℕ × ℕ)
  | [], _ => none
  | e :: rest, last =>
    match e.interference with
    | none =>
      some (if e.now > last then e.now else (last + 1) % U64,
            if e.now > last then e.now else (last + 1) % U64)
    | some fresh =>
      if fresh = last then
        some (if e.now > last then e.now else (last + 1) % U64,
              if e.now > last then e.now else (last + 1) % U64)
      else referenceNextLoop rest fresh

/-- A sequential operation on one `SequenceNumberCounter`: a `next()` call
(tagged with the clock value `current_monotonic_ns()` returns during it) or
a `get()` call. -/
inductive CtrOp where
  | next (now : ℕ)
  | get
deriving DecidableEq

/-- Sequential (uncontended) semantics of one counter operation on the
shared atomic state: `next` installs and returns its candidate (seqno.rs
lines 97-110 with a first-try CAS success), `get` is the atomic load
(seqno.rs lines 82-84).  Returns (returned value, new state). -/
def ctrStep (last : ℕ) : CtrOp → ℕ × ℕ
  | .next now => (nextCandidate now last, nextCandidate now last)
  | .get => (last, last)

/-- Runs a sequence of counter operations from a given stored value,
returning each operation paired with the value it returned. -/
def ctrRun (last : ℕ) : List CtrOp → List (CtrOp × ℕ)
  | [] => []
  | op :: ops => (op, (ctrStep last op).1) :: ctrRun (ctrStep last op).2 ops

/-- The values returned by the `next()` calls of a run, in call order. -/
def nextOutputs (last : ℕ) (ops : List CtrOp) : List ℕ :=
  (ctrRun last ops).filterMap fun p =>
    match p.1 with
    | .next _ => some p.2
    | .get => none

/-- Checks that `get()` never returns more than the most recent `next()`
return value: scans the run keeping the last `next` output and requires
every `get` output to be at most it (no constraint before the first
`next`). -/
def getsBounded : Option ℕ → List (CtrOp × ℕ) → Bool
  | _, [] => true
  | _, (.next _, v) :: rest => getsBounded (some v) rest
  | b, (.get, v) :: rest =>
    (match b with
     | none => true
     | some w => decide (v ≤ w)) && getsBounded b rest

/-- Holds when no `next()` call of the run wraps its `u64` increment: at
each `next`, either the clock value exceeds the stored value or the
increment `last + 1` stays below 2^64. -/
def wrapFree (last : ℕ) : List CtrOp → Bool
  | [] => true
  | .next now :: ops =>
    (decide (now > last) || decide (last + 1 < U64)) &&
      wrapFree (ctrStep last (.next now)).2 ops
  | .get :: ops => wrapFree last ops

/-! ## Clone family (seqno.rs lines 60-69)

`SequenceNumberCounter` is `#[derive(Clone)]` over an `Arc<AtomicU64>` and
derefs to that `Arc`, so every clone is a handle to the same shared atomic
cell: a trace of operations issued through different clones acts on one
shared state, and the clone identity does not enter the step function. -/

/-- Runs a trace of counter operations tagged with the id of the clone that
issued each one.  All clones share the single atomic cell, so the state
threads through the whole family; the id is carried along unchanged. -/
def familyRun (last : ℕ) : List (ℕ × CtrOp) → List (ℕ × CtrOp × ℕ)
  | [] => []
  | (c, op) :: ops => (c, op, (ctrStep last op).1) :: familyRun (ctrStep last op).2 ops

/-- The operation/output part of a family run, with clone ids erased. -/
def familyOuts (last : ℕ) (ops : List (ℕ × CtrOp)) : List (CtrOp × ℕ) :=
  (familyRun last ops).map fun t => (t.2.1, t.2.2)

/-- The values returned by `next()` calls across the whole clone family. -/
def familyNextOutputs (last : ℕ) (ops : List (ℕ × CtrOp)) : List ℕ :=
  nextOutputs last (ops.map Prod.snd)

/-! ## Records, runs, snapshots, and the merge iterator

The lsm-tree internals (memtable, snapshot filtering, merge iterator,
recovery path handling) are not part of this repository's sources — only
their tests and callers are — so they are modelled from the spec below. -/

/-- A key: a byte sequence, ordered lexicographically. -/
abbrev Key := List ℕ

/-- Modelled from the spec (§3 Data Model; the Record type of the missing
lsm-tree sources): a versioned entry `(key, seqno, payload)` whose payload
is a value or a tombstone (`none`). -/
structure Record where
  key : Key
  seqno : ℕ
  value : Option (List ℕ)
deriving DecidableEq

/-- Modelled from the spec (§3): a Run, a sorted sequence of Records. -/
abbrev Run := List Record

/-- Modelled from the spec (§3, §6; the missing store's `insert`): appends a
new versioned record to the live structure; existing records are never
mutated in place. -/
def insertRec (st : List Record) (k : Key) (v : List ℕ) (s : ℕ) : List Record :=
  st ++ [Record.mk k s (some v)]

/-- Modelled from the spec (§4.3: ascending key order): the distinct keys of
a store, in ascending lexicographic order. -/
def sortedKeys (st : List Record) : List Key :=
  List.insertionSort (· ≤ ·) (st.map Record.key).dedup

/-- Modelled from the spec (§4.2: "only the one with the greatest seqno
`<= threshold` is exposed"): among the records of key `k` with seqno at most
`t`, the one with the greatest seqno (a later-inserted record wins a seqno
tie). -/
def newestVisibleFrom (t : ℕ) (k : Key) (acc : Option Record) :
    List Record → Option Record
  | [] => acc
  | r :: rest =>
    newestVisibleFrom t k
      (if r.key = k then
         if r.seqno ≤ t then
           match acc with
           | none => some r
           | some b => if b.seqno ≤ r.seqno then some r else some b
         else acc
       else acc)
      rest

/-- The newest version of key `k` visible at threshold `t`. -/
def newestVisible (t : ℕ) (st : List Record) (k : Key) : Option Record :=
  newestVisibleFrom t k none st

/-- Modelled from the spec (§4.2): the newest version of key `k` with no
threshold, as the unfiltered live read path sees it. -/
def newestAnyFrom (k : Key) (acc : Option Record) : List Record → Option Record
  | [] => acc
  | r :: rest =>
    newestAnyFrom k
      (if r.key = k then
         match acc with
         | none => some r
         | some b => if b.seqno ≤ r.seqno then some r else some b
       else acc)
      rest

/-- The newest version of key `k` with no threshold. -/
def newestAny (st : List Record) (k : Key) : Option Record :=
  newestAnyFrom k none st

/-- Modelled from the spec (§4.2): the records a snapshot at threshold `t`
exposes — for each key, the newest version with seqno at most `t`. -/
def snapshotRecords (t : ℕ) (st : List Record) : List Record :=
  (sortedKeys st).filterMap (newestVisible t st)

/-- Modelled from the spec (§4.2): the keys a snapshot at threshold `t`
lists; a tombstone suppresses its key entirely. -/
def snapshotKeys (t : ℕ) (st : List Record) : List Key :=
  (snapshotRecords t st).filterMap fun r =>
    match r.value with
    | some _ => some r.key
    | none => none

/-- Modelled from the spec (§4.2): the keys the unfiltered live iterator
lists. -/
def liveKeys (st : List Record) : List Key :=
  ((sortedKeys st).filterMap (newestAny st)).filterMap fun r =>
    match r.value with
    | some _ => some r.key
    | none => none

/-! ### The disjoint merge iterator (modelled from spec §4.3) -/

/-- The forward candidate keys: the key at the head of each run's cursor. -/
def headKeys (runs : List Run) : List Key :=
  runs.filterMap fun r => r.head?.map Record.key

/-- The lexicographically smallest candidate key, if any cursor is live. -/
def minKey? : List Key → Option Key
  | [] => none
  | k :: ks => some (ks.foldl min k)

/-- One cursor's contribution to the highest-seqno selection at key `k`:
replaces the accumulator when this cursor's head carries key `k` with a
strictly greater seqno. -/
def bestStep (k : Key) (acc : Option Record) : Run → Option Record
  | [] => acc
  | x :: _ =>
    if x.key = k then
      match acc with
      | none => some x
      | some b => if b.seqno < x.seqno then some x else some b
    else acc

/-- Modelled from the spec (§4.3: "if multiple cursors tie on key, select
only the version with the highest seqno"): among the run heads carrying key
`k`, the record with the greatest seqno, starting from accumulator `acc`. -/
def bestAtFrom (k : Key) (acc : Option Record) : List Run → Option Record
  | [] => acc
  | run :: rest => bestAtFrom k (bestStep k acc run) rest

/-- The highest-seqno record among the run heads carrying key `k`. -/
def bestAt (k : Key) (runs : List Run) : Option Record :=
  bestAtFrom k none runs

/-- Advances one cursor past its head when that head carries key `k`. -/
def popOne (k : Key) : Run → Run
  | [] => []
  | x :: t => if x.key = k then t else x :: t

/-- Advances every cursor whose head carries key `k` past that head (the
shadowed duplicates are discarded without being yielded). -/
def popKey (k : Key) (runs : List Run) : List Run :=
  runs.map (popOne k)

/-- The total number of not-yet-consumed records across all cursors. -/
def totalLen (runs : List Run) : ℕ := (runs.map List.length).sum

/-- Modelled from the spec (§4.3 Algorithm): one forward selection step per
unit of fuel — pick the smallest candidate key, yield its highest-seqno
version, advance every cursor holding that key. -/
def mergeGo : ℕ → List Run → List Record
  | 0, _ => []
  | fuel + 1, runs =>
    match minKey? (headKeys runs) with
    | none => []
    | some k =>
      match bestAt k runs with
      | none => []
      | some w => w :: mergeGo fuel (popKey k runs)

/-- The full forward merge of a partition's runs: the shared ordered
sequence both directions of the merge iterator consume from. -/
def mergeRuns (runs : List Run) : List Record :=
  mergeGo (totalLen runs) runs

/-- Modelled from the spec (§4.3: interleaved `next()`/`next_back()` behave
"as if the two directions consume from a single shared ordered sequence"):
runs a call pattern (`true` = `next()`, `false` = `next_back()`) against the
window of not-yet-yielded elements, returning each call's yield and the
final window. -/
def runDE {α : Type} : List Bool → List α → List (Option α) × List α
  | [], xs => ([], xs)
  | true :: cs, xs =>
    (xs.head? :: (runDE cs xs.tail).1, (runDE cs xs.tail).2)
  | false :: cs, xs =>
    (xs.getLast? :: (runDE cs xs.dropLast).1, (runDE cs xs.dropLast).2)

/-- The elements actually yielded by a call pattern (the `none` answers of
an exhausted iterator are dropped). -/
def yieldsDE {α : Type} (cs : List Bool) (xs : List α) : List α :=
  ((runDE cs xs).1).filterMap id

/-- Modelled from the `rev()` adapter used by the test: the reversed
iterator answers `next()` with the base iterator's `next_back()` and vice
versa, so a call pattern against it is the negated pattern against the
base. -/
def revCalls (cs : List Bool) : List Bool := cs.map (! ·)

/-- Forward collection: repeated `next()` until exhaustion. -/
def collectFwd (xs : List Record) : List Record :=
  yieldsDE (List.replicate xs.length true) xs

/-- Forward collection over the `rev()` of the iterator. -/
def collectFwdOfRev (xs : List Record) : List Record :=
  yieldsDE (revCalls (List.replicate xs.length true)) xs

/-- The sorted run a flush of one insertion batch persists (the memtable
keeps its records in key order). -/
def flushRun (batch : List Record) : Run :=
  List.insertionSort (fun a b => a.key ≤ b.key) batch

/-- The two runs of tests/tree_disjoint_iter.rs: the batches f, e, d and
a, b, c (seqno 0, empty values), each flushed as its own run. -/
def scenarioRuns : List Run :=
  [flushRun [Record.mk [102] 0 (some []), Record.mk [101] 0 (some []),
             Record.mk [100] 0 (some [])],
   flushRun [Record.mk [97] 0 (some []), Record.mk [98] 0 (some []),
             Record.mk [99] 0 (some [])]]

/-! ### Recovery (modelled from spec §4.4) -/

/-- Modelled from the spec (§4.4): a path, absolute or relative to the
process's current working directory. -/
inductive MPath where
  | absolute (comps : List String)
  | relative (comps : List String)
deriving DecidableEq

/-- Modelled from the spec (§4.4): canonicalization resolves a relative
path against the current working directory and leaves an absolute path
unchanged. -/
def canonicalize (cwd : List String) : MPath → List String
  | .absolute comps => comps
  | .relative comps => cwd ++ comps

/-- Modelled from the spec (§2, §4.4): the persisted state, keyed by
canonical absolute location. -/
structure DiskState where
  parts : List (List String × List Run)

/-- Modelled from the spec (§4.4 `open`): canonicalize the path, rehydrate
the partition's persisted runs, and serve its visible key list through the
merge iterator.  A reopen of an already-flushed partition writes nothing, so
the disk state is returned unchanged. -/
def openPartition (fs : DiskState) (cwd : List String) (p : MPath) :
    Option (List Key) × DiskState :=
  (match fs.parts.lookup (canonicalize cwd p) with
   | some runs => some ((mergeRuns runs).map Record.key)
   | none => none,
   fs)

/-- Consecutive reopen/close cycles, each from its own working directory:
the key list each reopen observes, and the final disk state. -/
def reopenCycles (fs : DiskState) (cwds : List (List String)) (p : MPath) :
    List (Option (List Key)) × DiskState :=
  match cwds with
  | [] => ([], fs)
  | cwd :: rest =>
    ((openPartition fs cwd p).1 ::
       (reopenCycles (openPartition fs cwd p).2 rest p).1,
     (reopenCycles (openPartition fs cwd p).2 rest p).2)

/-! ## Counter lemmas -/

lemma nextCandidate_gt (now last : ℕ) (h : now > last ∨ last + 1 < U64) :
    last < nextCandidate now last := by
  unfold nextCandidate
  rcases h with h | h
  · rw [if_pos h]; exact h
  · split
    · assumption
    · rw [Nat.mod_eq_of_lt h]; omega

lemma ctrRun_inv (ops : List CtrOp) (last : ℕ) (h : wrapFree last ops = true) :
    (∀ v ∈ nextOutputs last ops, last < v) ∧
    List.Pairwise (· < ·) (nextOutputs last ops) ∧
    ∀ b : Option ℕ, (∀ w, b = some w → w = last) →
      getsBounded b (ctrRun last ops) = true := by
  induction ops generalizing last with
  | nil =>
    refine ⟨by simp [nextOutputs, ctrRun], by simp [nextOutputs, ctrRun], ?_⟩
    intro b _
    cases b <;> simp [getsBounded, ctrRun]
  | cons op ops ih =>
    cases op with
    | get =>
      have hwf : wrapFree last ops = true := by simpa [wrapFree] using h
      obtain ⟨ih1, ih2, ih3⟩ := ih last hwf
      have houts : nextOutputs last (CtrOp.get :: ops) = nextOutputs last ops := by
        simp [nextOutputs, ctrRun, ctrStep, List.filterMap_cons]
      refine ⟨by rw [houts]; exact ih1, by rw [houts]; exact ih2, ?_⟩
      intro b hb
      have hrun : ctrRun last (CtrOp.get :: ops) =
          (CtrOp.get, last) :: ctrRun last ops := by
        simp [ctrRun, ctrStep]
      rw [hrun]
      cases b with
      | none => simpa [getsBounded] using ih3 none (by simp)
      | some w =>
        have hw : w = last := hb w rfl
        subst hw
        simp only [getsBounded, Bool.and_eq_true, decide_eq_true_eq]
        exact ⟨le_refl _, ih3 (some w) (fun u hu => by simpa using hu.symm)⟩
    | next now =>
      have hcond : now > last ∨ last + 1 < U64 := by
        have := h
        simp only [wrapFree, Bool.and_eq_true, Bool.or_eq_true, decide_eq_true_eq]
          at this
        exact this.1
      have hwf : wrapFree (nextCandidate now last) ops = true := by
        have := h
        simp only [wrapFree, Bool.and_eq_true] at this
        simpa [ctrStep] using this.2
      obtain ⟨ih1, ih2, ih3⟩ := ih (nextCandidate now last) hwf
      have hgt : last < nextCandidate now last := nextCandidate_gt now last hcond
      have houts : nextOutputs last (CtrOp.next now :: ops) =
          nextCandidate now last :: nextOutputs (nextCandidate now last) ops := by
        simp [nextOutputs, ctrRun, ctrStep, List.filterMap_cons]
      refine ⟨?_, ?_, ?_⟩
      · rw [houts]
        intro v hv
        rcases List.mem_cons.mp hv with hv | hv
        · omega
        · exact lt_trans hgt (ih1 v hv)
      · rw [houts]
        exact List.pairwise_cons.mpr ⟨ih1, ih2⟩
      · intro b _
        have hrun : ctrRun last (CtrOp.next now :: ops) =
            (CtrOp.next now, nextCandidate now last) ::
              ctrRun (nextCandidate now last) ops := by
          simp [ctrRun, ctrStep]
        rw [hrun]
        simpa [getsBounded] using
          ih3 (some (nextCandidate now last)) (fun u hu => by simpa using hu.symm)

lemma familyOuts_eq (ops : List (ℕ × CtrOp)) (last : ℕ) :
    familyOuts last ops = ctrRun last (ops.map Prod.snd) := by
  induction ops generalizing last with
  | nil => rfl
  | cons p ops ih =>
    cases p with
    | mk c op =>
      have hstep : familyOuts last ((c, op) :: ops) =
          (op, (ctrStep last op).1) :: familyOuts (ctrStep last op).2 ops := rfl
      rw [hstep, ih]
      rfl

/-! ## Theorems about the counter claims -/

/-- C1 (amended): for every sequence of `next()` and `get()` calls on one
counter in which no `next()` wraps its u64 increment (at each `next()` the
stored value is below 2^64 - 1 or the clock value exceeds it), every value
returned by `next()` is strictly greater than every value previously
returned by `next()`, and `get()` never returns a value greater than the
last value returned by `next()`. -/
theorem counter_invariant (seed : ℕ) (ops : List CtrOp)
    (h : wrapFree seed ops = true) :
    List.Pairwise (· < ·) (nextOutputs seed ops) ∧
    getsBounded none (ctrRun seed ops) = true :=
  ⟨(ctrRun_inv ops seed h).2.1, (ctrRun_inv ops seed h).2.2 none (by simp)⟩

/-- Witness for `counter_invariant` at seed 0 with trace
next(5); get(); next(5). -/
theorem counter_invariant_witness :
    wrapFree 0 [CtrOp.next 5, CtrOp.get, CtrOp.next 5] = true ∧
    (List.Pairwise (· < ·) (nextOutputs 0 [CtrOp.next 5, CtrOp.get, CtrOp.next 5]) ∧
     getsBounded none (ctrRun 0 [CtrOp.next 5, CtrOp.get, CtrOp.next 5]) = true) :=
  ⟨by decide, counter_invariant 0 [CtrOp.next 5, CtrOp.get, CtrOp.next 5] (by decide)⟩

/-- C1 counterexample: from stored value 0, a `next()` whose clock reads
2^64 - 1 returns 2^64 - 1; a following `next()` whose clock reads 0 takes
the `last + 1` branch, which wraps to 0 in u64 arithmetic, so the second
`next()` return value is not greater than the first: the claimed invariant
fails as stated. -/
theorem counter_invariant_cex :
    ¬ (List.Pairwise (· < ·) (nextOutputs 0 [CtrOp.next (U64 - 1), CtrOp.next 0]) ∧
       getsBounded none (ctrRun 0 [CtrOp.next (U64 - 1), CtrOp.next 0]) = true) := by
  decide

/-- C9 (amended): clones of one `SequenceNumberCounter` share the single
atomic cell, so a trace of operations distributed over clone ids acts on one
shared state (the clone id is erased by the semantics), and for every such
trace in which no `next()` wraps its u64 increment, the strict monotonicity
of `next()` and the `get()` upper bound hold jointly across the whole clone
family. -/
theorem clones_share_state (seed : ℕ) (ops : List (ℕ × CtrOp))
    (h : wrapFree seed (ops.map Prod.snd) = true) :
    familyOuts seed ops = ctrRun seed (ops.map Prod.snd) ∧
    List.Pairwise (· < ·) (familyNextOutputs seed ops) ∧
    getsBounded none (familyOuts seed ops) = true := by
  refine ⟨familyOuts_eq ops seed, (ctrRun_inv (ops.map Prod.snd) seed h).2.1, ?_⟩
  rw [familyOuts_eq ops seed]
  exact (ctrRun_inv (ops.map Prod.snd) seed h).2.2 none (by simp)

/-- Witness for `clones_share_state`: two clones interleaving
next(5) / get() / next(5). -/
theorem clones_share_state_witness :
    wrapFree 0 ([(0, CtrOp.next 5), (1, CtrOp.get), (1, CtrOp.next 5)].map Prod.snd)
      = true ∧
    (familyOuts 0 [(0, CtrOp.next 5), (1, CtrOp.get), (1, CtrOp.next 5)] =
       ctrRun 0 ([(0, CtrOp.next 5), (1, CtrOp.get), (1, CtrOp.next 5)].map Prod.snd) ∧
     List.Pairwise (· < ·)
       (familyNextOutputs 0 [(0, CtrOp.next 5), (1, CtrOp.get), (1, CtrOp.next 5)]) ∧
     getsBounded none (familyOuts 0 [(0, CtrOp.next 5), (1, CtrOp.get), (1, CtrOp.next 5)])
       = true) :=
  ⟨by decide,
   clones_share_state 0 [(0, CtrOp.next 5), (1, CtrOp.get), (1, CtrOp.next 5)] (by decide)⟩

/-- C9 counterexample: with two clones of a counter seeded at 0, a `next()`
through clone 0 at clock value 2^64 - 1 followed by a `next()` through
clone 1 at clock value 0 yields the family outputs 2^64 - 1 and then 0 (the
u64 increment wraps), so joint strict monotonicity over the clone family
fails as stated. -/
theorem clones_share_state_cex :
    ¬ (List.Pairwise (· < ·)
         (familyNextOutputs 0 [(0, CtrOp.next (U64 - 1)), (1, CtrOp.next 0)]) ∧
       getsBounded none (familyOuts 0 [(0, CtrOp.next (U64 - 1)), (1, CtrOp.next 0)])
         = true) := by
  decide

lemma nextLoop_cons_none (e : LoopEnv) (rest : List LoopEnv) (state : ℕ)
    (he : e.interference = none) :
    nextLoop (e :: rest) state =
      some (nextCandidate e.now state, nextCandidate e.now state) := by
  simp [nextLoop, he]

lemma nextLoop_cons_hit (e : LoopEnv) (rest : List LoopEnv) (state w : ℕ)
    (he : e.interference = some w) (hw : w = state) :
    nextLoop (e :: rest) state =
      some (nextCandidate e.now state, nextCandidate e.now state) := by
  simp [nextLoop, he, hw]

lemma nextLoop_cons_miss (e : LoopEnv) (rest : List LoopEnv) (state w : ℕ)
    (he : e.interference = some w) (hw : ¬ w = state) :
    nextLoop (e :: rest) state = nextLoop rest w := by
  simp [nextLoop, he, hw]

/-- C5: the implemented `next()` loop equals the spec's reference algorithm
(same candidate rule, same retry against the freshly observed value) on
every schedule and every starting state, and whenever the loop returns, the
returned value is exactly the value the compare-and-swap installed. -/
theorem next_matches_reference (sched : List LoopEnv) (state : ℕ) :
    nextLoop sched state = referenceNextLoop sched state ∧
    ∀ v s, nextLoop sched state = some (v, s) → v = s := by
  induction sched generalizing state with
  | nil => exact ⟨rfl, fun v s h => by simp [nextLoop] at h⟩
  | cons e rest ih =>
    constructor
    · cases he : e.interference with
      | none => simp [nextLoop, referenceNextLoop, nextCandidate, he]
      | some w =>
        by_cases hw : w = state
        · simp [nextLoop, referenceNextLoop, nextCandidate, he, hw]
        · simp [nextLoop, referenceNextLoop, nextCandidate, he, hw, (ih w).1]
    · intro v s h
      cases he : e.interference with
      | none =>
        rw [nextLoop_cons_none e rest state he] at h
        simp only [Option.some.injEq, Prod.mk.injEq] at h
        omega
      | some w =>
        by_cases hw : w = state
        · rw [nextLoop_cons_hit e rest state w he hw] at h
          simp only [Option.some.injEq, Prod.mk.injEq] at h
          omega
        · rw [nextLoop_cons_miss e rest state w he hw] at h
          exact (ih w).2 v s h

/-- Witness for `next_matches_reference` at a one-iteration uncontended
schedule with clock value 5 and state 3 (the loop returns the installed 5). -/
theorem next_matches_reference_witness :
    nextLoop [⟨5, none⟩] 3 = referenceNextLoop [⟨5, none⟩] 3 ∧ (5 : ℕ) = 5 :=
  ⟨(next_matches_reference [⟨5, none⟩] 3).1,
   (next_matches_reference [⟨5, none⟩] 3).2 5 5 (by decide)⟩

/-- C6: the counter has no failure branch: for every stored value (including
u64::MAX = 2^64 - 1) and every schedule in which some iteration runs without
interference, `next()` returns an installed value — the only alternative is
to keep spinning while every iteration loses its compare-and-swap — and
`get()` is a plain atomic load that always returns the stored value. -/
theorem next_no_failure (sched : List LoopEnv) (state : ℕ)
    (h : ∃ e ∈ sched, e.interference = none) :
    (∃ v s, nextLoop sched state = some (v, s)) ∧
    (ctrStep state CtrOp.get).1 = state := by
  refine ⟨?_, rfl⟩
  induction sched generalizing state with
  | nil => simp at h
  | cons e rest ih =>
    cases he : e.interference with
    | none =>
      exact ⟨nextCandidate e.now state, nextCandidate e.now state,
        nextLoop_cons_none e rest state he⟩
    | some w =>
      by_cases hw : w = state
      · exact ⟨nextCandidate e.now state, nextCandidate e.now state,
          nextLoop_cons_hit e rest state w he hw⟩
      · rcases h with ⟨f, hf, hfi⟩
        rcases List.mem_cons.mp hf with rfl | hf
        · rw [he] at hfi; cases hfi
        · obtain ⟨v, s, hv⟩ := ih w ⟨f, hf, hfi⟩
          exact ⟨v, s, (nextLoop_cons_miss e rest state w he hw).trans hv⟩

/-- Witness for `next_no_failure` with the stored value u64::MAX and an
uncontended single-iteration schedule. -/
theorem next_no_failure_witness :
    (∃ e ∈ [(⟨0, none⟩ : LoopEnv)], e.interference = none) ∧
    ((∃ v s, nextLoop [(⟨0, none⟩ : LoopEnv)] (U64 - 1) = some (v, s)) ∧
     (ctrStep (U64 - 1) CtrOp.get).1 = U64 - 1) :=
  ⟨⟨⟨0, none⟩, by simp, rfl⟩,
   next_no_failure [(⟨0, none⟩ : LoopEnv)] (U64 - 1) ⟨⟨0, none⟩, by simp, rfl⟩⟩

/-- C7: if at first use (empty once-cell) the wall clock cannot be read as a
duration since the Unix epoch, `get_epoch_offset` aborts with the panic
message and installs no fallback; once a pair has been captured, every later
call returns exactly that pair for every clock reading, so the failure can
no longer occur. -/
theorem clock_before_epoch_fatal :
    (∀ clock : ClockReading, clock.sinceEpoch = none →
       get_epoch_offset none clock = .error "System time is before Unix epoch") ∧
    (∀ v clock, get_epoch_offset (some v) clock = .ok (v, some v)) := by
  constructor
  · intro clock h
    simp [get_epoch_offset, h]
  · intro v clock
    rfl

/-- Witness for `clock_before_epoch_fatal`: a first-use reading with the
system clock before the epoch aborts; a later call with the cell holding
(7, 42) ignores the clock and returns (7, 42). -/
theorem clock_before_epoch_fatal_witness :
    get_epoch_offset none ⟨7, none⟩ = .error "System time is before Unix epoch" ∧
    get_epoch_offset (some (7, 42)) ⟨9, some 100⟩ = .ok ((7, 42), some (7, 42)) :=
  ⟨clock_before_epoch_fatal.1 ⟨7, none⟩ rfl,
   clock_before_epoch_fatal.2 (7, 42) ⟨9, some 100⟩⟩

/-- C10: `current_monotonic_ns` adds the captured epoch offset and the
elapsed monotonic nanoseconds in u128 arithmetic and truncates with an
`as u64` cast, so for every u128 offset and elapsed value the result is
exactly (start_epoch_ns + elapsed_ns) mod 2^64 — truncation, never
saturation, and no overflow check. -/
theorem current_monotonic_ns_truncation (start_epoch_ns elapsed_ns : ℕ)
    (h1 : start_epoch_ns < U128) (h2 : elapsed_ns < U128) :
    current_monotonic_ns start_epoch_ns elapsed_ns =
      (start_epoch_ns + elapsed_ns) % U64 := by
  unfold current_monotonic_ns
  rw [Nat.mod_eq_of_lt h1, Nat.mod_eq_of_lt h2]
  exact Nat.mod_mod_of_dvd _ (by unfold U64 U128; exact Nat.pow_dvd_pow 2 (by norm_num))

/-- Witness for `current_monotonic_ns_truncation` at offset 3, elapsed 4. -/
theorem current_monotonic_ns_truncation_witness :
    (3 : ℕ) < U128 ∧ (4 : ℕ) < U128 ∧
    current_monotonic_ns 3 4 = (3 + 4) % U64 :=
  ⟨by decide, by decide, current_monotonic_ns_truncation 3 4 (by decide) (by decide)⟩

/-! ## Merge-iterator lemmas -/

lemma foldl_min_mem (ks : List Key) (a : Key) :
    ks.foldl min a = a ∨ ks.foldl min a ∈ ks := by
  induction ks generalizing a with
  | nil => exact Or.inl rfl
  | cons x ks ih =>
    rw [List.foldl_cons]
    rcases ih (min a x) with h | h
    · rcases min_choice a x with hm | hm
      · exact Or.inl (by rw [h, hm])
      · exact Or.inr (by rw [h, hm]; exact List.mem_cons_self x ks)
    · exact Or.inr (List.mem_cons_of_mem x h)

lemma foldl_min_le (ks : List Key) (a : Key) :
    ks.foldl min a ≤ a ∧ ∀ x ∈ ks, ks.foldl min a ≤ x := by
  induction ks generalizing a with
  | nil => exact ⟨le_refl a, by simp⟩
  | cons x ks ih =>
    rw [List.foldl_cons]
    obtain ⟨h1, h2⟩ := ih (min a x)
    refine ⟨h1.trans (min_le_left a x), ?_⟩
    intro y hy
    rcases List.mem_cons.mp hy with rfl | hy
    · exact h1.trans (min_le_right a y)
    · exact h2 y hy

lemma minKey?_mem {ks : List Key} {k : Key} (h : minKey? ks = some k) : k ∈ ks := by
  cases ks with
  | nil => cases h
  | cons x ks =>
    simp only [minKey?, Option.some.injEq] at h
    subst h
    rcases foldl_min_mem ks x with h | h
    · rw [h]; exact List.mem_cons_self x ks
    · exact List.mem_cons_of_mem x h

lemma minKey?_le {ks : List Key} {k : Key} (h : minKey? ks = some k) :
    ∀ x ∈ ks, k ≤ x := by
  cases ks with
  | nil => cases h
  | cons y ks =>
    simp only [minKey?, Option.some.injEq] at h
    subst h
    intro x hx
    rcases List.mem_cons.mp hx with rfl | hx
    · exact (foldl_min_le ks x).1
    · exact (foldl_min_le ks y).2 x hx

lemma minKey?_isSome {ks : List Key} (h : ks ≠ []) : ∃ k, minKey? ks = some k := by
  cases ks with
  | nil => exact absurd rfl h
  | cons x ks => exact ⟨ks.foldl min x, rfl⟩

lemma headKeys_of_mem {runs : List Run} {x : Record} {t : List Record}
    (h : (x :: t) ∈ runs) : x.key ∈ headKeys runs := by
  unfold headKeys
  exact List.mem_filterMap.mpr ⟨x :: t, h, rfl⟩

lemma headKeys_nil_cons (rest : List Run) :
    headKeys ([] :: rest) = headKeys rest := by
  simp [headKeys]

lemma headKeys_cons_cons (x : Record) (t : List Record) (rest : List Run) :
    headKeys ((x :: t) :: rest) = x.key :: headKeys rest := by
  simp [headKeys]

lemma bestStep_key {k : Key} {acc : Option Record} {run : Run}
    (hacc : ∀ b, acc = some b → b.key = k) :
    ∀ b, bestStep k acc run = some b → b.key = k := by
  intro b hb
  cases run with
  | nil => exact hacc b hb
  | cons x t =>
    cases acc with
    | none =>
      simp only [bestStep] at hb
      by_cases hx : x.key = k
      · rw [if_pos hx] at hb
        injection hb with hb
        rw [← hb]; exact hx
      · rw [if_neg hx] at hb
        cases hb
    | some b0 =>
      have hb0 : b0.key = k := hacc b0 rfl
      simp only [bestStep] at hb
      by_cases hx : x.key = k
      · rw [if_pos hx] at hb
        by_cases hs : b0.seqno < x.seqno
        · rw [if_pos hs] at hb; injection hb with hb; rw [← hb]; exact hx
        · rw [if_neg hs] at hb; injection hb with hb; rw [← hb]; exact hb0
      · rw [if_neg hx] at hb
        injection hb with hb
        rw [← hb]; exact hb0

lemma bestStep_ne_none {k : Key} {acc : Option Record} {run : Run}
    (h : acc ≠ none) : bestStep k acc run ≠ none := by
  cases run with
  | nil => exact h
  | cons x t =>
    cases acc with
    | none => exact absurd rfl h
    | some b =>
      simp only [bestStep]
      by_cases hx : x.key = k
      · rw [if_pos hx]
        by_cases hs : b.seqno < x.seqno <;> simp [hs]
      · rw [if_neg hx]; simp

lemma bestAtFrom_key {k : Key} (runs : List Run) :
    ∀ acc : Option Record, (∀ b, acc = some b → b.key = k) →
    ∀ w, bestAtFrom k acc runs = some w → w.key = k := by
  induction runs with
  | nil =>
    intro acc hacc w h
    exact hacc w h
  | cons run rest ih =>
    intro acc hacc w h
    simp only [bestAtFrom] at h
    exact ih _ (bestStep_key hacc) w h

lemma bestAtFrom_isSome {k : Key} (runs : List Run) :
    ∀ acc : Option Record, (acc ≠ none ∨ k ∈ headKeys runs) →
    ∃ w, bestAtFrom k acc runs = some w := by
  induction runs with
  | nil =>
    intro acc h
    rcases h with h | h
    · cases hacc : acc with
      | none => exact absurd hacc h
      | some b => exact ⟨b, by simp [bestAtFrom, hacc]⟩
    · simp [headKeys] at h
  | cons run rest ih =>
    intro acc h
    simp only [bestAtFrom]
    apply ih
    rcases h with h | h
    · exact Or.inl (bestStep_ne_none h)
    · cases run with
      | nil =>
        right
        rwa [headKeys_nil_cons] at h
      | cons x t =>
        rw [headKeys_cons_cons] at h
        rcases List.mem_cons.mp h with h | hk
        · left
          subst h
          cases acc with
          | none => simp [bestStep]
          | some b => by_cases hs : b.seqno < x.seqno <;> simp [bestStep, hs]
        · right; exact hk

lemma popOne_length_le (k : Key) (run : Run) :
    (popOne k run).length ≤ run.length := by
  cases run with
  | nil => exact le_refl _
  | cons x t => by_cases hx : x.key = k <;> simp [popOne, hx]

lemma popOne_sub {k : Key} {run : Run} {r : Record} (h : r ∈ popOne k run) :
    r ∈ run := by
  cases run with
  | nil => cases h
  | cons x t =>
    by_cases hx : x.key = k
    · rw [popOne, if_pos hx] at h
      exact List.mem_cons_of_mem x h
    · rwa [popOne, if_neg hx] at h

lemma popOne_sorted {k : Key} {run : Run}
    (h : List.Pairwise (fun a b : Record => a.key < b.key) run) :
    List.Pairwise (fun a b : Record => a.key < b.key) (popOne k run) := by
  cases run with
  | nil => exact h
  | cons x t =>
    by_cases hx : x.key = k
    · rw [popOne, if_pos hx]
      exact (List.pairwise_cons.mp h).2
    · rwa [popOne, if_neg hx]

lemma totalLen_cons (run : Run) (rest : List Run) :
    totalLen (run :: rest) = run.length + totalLen rest := by
  simp [totalLen]

lemma popKey_totalLen_le (k : Key) (runs : List Run) :
    totalLen (popKey k runs) ≤ totalLen runs := by
  induction runs with
  | nil => exact le_refl _
  | cons run rest ih =>
    have h1 : popKey k (run :: rest) = popOne k run :: popKey k rest := rfl
    rw [h1, totalLen_cons, totalLen_cons]
    have h2 := popOne_length_le k run
    omega

lemma popKey_totalLen_lt {k : Key} {runs : List Run}
    (h : k ∈ headKeys runs) :
    totalLen (popKey k runs) < totalLen runs := by
  induction runs with
  | nil => simp [headKeys] at h
  | cons run rest ih =>
    have h1 : popKey k (run :: rest) = popOne k run :: popKey k rest := rfl
    rw [h1, totalLen_cons, totalLen_cons]
    cases run with
    | nil =>
      rw [headKeys_nil_cons] at h
      have hlt := ih h
      simpa [popOne] using hlt
    | cons x t =>
      by_cases hx : x.key = k
      · have hlen : (popOne k (x :: t)).length = t.length := by simp [popOne, hx]
        have hle := popKey_totalLen_le k rest
        simp only [hlen, List.length_cons]
        omega
      · rw [headKeys_cons_cons] at h
        rcases List.mem_cons.mp h with h | h
        · exact absurd h.symm hx
        · have hlt := ih h
          have hlen : (popOne k (x :: t)).length = (x :: t).length := by
            simp [popOne, hx]
          omega

lemma popKey_keys_gt {k : Key} {runs : List Run}
    (hs : ∀ run ∈ runs, List.Pairwise (fun a b : Record => a.key < b.key) run)
    (hmin : ∀ x ∈ headKeys runs, k ≤ x) :
    ∀ run' ∈ popKey k runs, ∀ r ∈ run', k < r.key := by
  intro run' hrun' r hr
  obtain ⟨run, hrun, hmap⟩ := List.mem_map.mp hrun'
  subst hmap
  cases run with
  | nil => cases hr
  | cons x t =>
    have hxk : k ≤ x.key := hmin _ (headKeys_of_mem hrun)
    have hsort := hs _ hrun
    by_cases hx : x.key = k
    · rw [popOne, if_pos hx] at hr
      have hxr := (List.pairwise_cons.mp hsort).1 r hr
      exact hx ▸ hxr
    · rw [popOne, if_neg hx] at hr
      rcases List.mem_cons.mp hr with rfl | hr
      · exact lt_of_le_of_ne hxk fun he => hx he.symm
      · exact lt_of_le_of_lt hxk ((List.pairwise_cons.mp hsort).1 r hr)

lemma length_le_totalLen {run : Run} {runs : List Run} (h : run ∈ runs) :
    run.length ≤ totalLen runs :=
  List.single_le_sum (fun x _ => Nat.zero_le x) _ (List.mem_map_of_mem List.length h)

lemma mergeGo_cons_eq {fuel : ℕ} {runs : List Run} {k : Key} {w : Record}
    (hm : minKey? (headKeys runs) = some k) (hb : bestAt k runs = some w) :
    mergeGo (fuel + 1) runs = w :: mergeGo fuel (popKey k runs) := by
  simp [mergeGo, hm, hb]

lemma mergeGo_keys_gt (fuel : ℕ) :
    ∀ (runs : List Run) (klb : Key),
    (∀ run ∈ runs, ∀ r ∈ run, klb < r.key) →
    ∀ r ∈ mergeGo fuel runs, klb < r.key := by
  induction fuel with
  | zero =>
    intro runs klb _ r hr
    cases hr
  | succ fuel ih =>
    intro runs klb h r hr
    cases hm : minKey? (headKeys runs) with
    | none => simp [mergeGo, hm] at hr
    | some k =>
      cases hb : bestAt k runs with
      | none => simp [mergeGo, hm, hb] at hr
      | some w =>
        rw [mergeGo_cons_eq hm hb] at hr
        rcases List.mem_cons.mp hr with rfl | hr
        · have hexists : ∃ x : Record, ∃ t : List Record,
              (x :: t) ∈ runs ∧ x.key = k := by
            have hk := minKey?_mem hm
            unfold headKeys at hk
            obtain ⟨run, hrun, hf⟩ := List.mem_filterMap.mp hk
            cases run with
            | nil => simp at hf
            | cons x t =>
              simp only [List.head?_cons, Option.map_some'] at hf
              injection hf with hf
              exact ⟨x, t, hrun, hf⟩
          obtain ⟨x, t, hrun, hxk⟩ := hexists
          have hwk : r.key = k :=
            bestAtFrom_key runs none (by intro b hb0; cases hb0) r hb
          have : klb < x.key := h _ hrun x (List.mem_cons_self x t)
          rw [hwk, ← hxk]
          exact this
        · refine ih (popKey k runs) klb ?_ r hr
          intro run' hrun' r' hr'
          obtain ⟨run, hrun, hmap⟩ := List.mem_map.mp hrun'
          exact h run hrun r' (popOne_sub (hmap ▸ hr'))

lemma popKey_sorted {k : Key} {runs : List Run}
    (hs : ∀ run ∈ runs, List.Pairwise (fun a b : Record => a.key < b.key) run) :
    ∀ run' ∈ popKey k runs,
      List.Pairwise (fun a b : Record => a.key < b.key) run' := by
  intro run' hrun'
  obtain ⟨run, hrun, hmap⟩ := List.mem_map.mp hrun'
  exact hmap ▸ popOne_sorted (hs run hrun)

lemma mergeGo_sorted (fuel : ℕ) :
    ∀ runs : List Run,
    (∀ run ∈ runs, List.Pairwise (fun a b : Record => a.key < b.key) run) →
    List.Pairwise (fun a b : Record => a.key < b.key) (mergeGo fuel runs) := by
  induction fuel with
  | zero => intro runs _; exact List.Pairwise.nil
  | succ fuel ih =>
    intro runs hs
    cases hm : minKey? (headKeys runs) with
    | none => simp [mergeGo, hm]
    | some k =>
      cases hb : bestAt k runs with
      | none => simp [mergeGo, hm, hb]
      | some w =>
        rw [mergeGo_cons_eq hm hb]
        refine List.pairwise_cons.mpr ⟨?_, ih _ (popKey_sorted hs)⟩
        intro r hr
        have hwk : w.key = k :=
          bestAtFrom_key runs none (by intro b hb0; cases hb0) w hb
        have hgt : k < r.key := by
          refine mergeGo_keys_gt fuel (popKey k runs) k ?_ r hr
          exact popKey_keys_gt hs (minKey?_le hm)
        rw [hwk]
        exact hgt

lemma mergeRuns_sorted {runs : List Run}
    (hs : ∀ run ∈ runs, List.Pairwise (fun a b : Record => a.key < b.key) run) :
    List.Pairwise (fun a b : Record => a.key < b.key) (mergeRuns runs) :=
  mergeGo_sorted _ runs hs

lemma mergeRuns_keys_nodup {runs : List Run}
    (hs : ∀ run ∈ runs, List.Pairwise (fun a b : Record => a.key < b.key) run) :
    ((mergeRuns runs).map Record.key).Nodup := by
  have h1 : ((mergeRuns runs).map Record.key).Pairwise (· < ·) :=
    List.pairwise_map.mpr (mergeRuns_sorted hs)
  exact h1.imp ne_of_lt

lemma mergeGo_complete (fuel : ℕ) :
    ∀ runs : List Run, totalLen runs ≤ fuel →
    ∀ k : Key, (∃ run ∈ runs, ∃ r ∈ run, r.key = k) →
    ∃ r ∈ mergeGo fuel runs, r.key = k := by
  induction fuel with
  | zero =>
    intro runs hf k hk
    obtain ⟨run, hrun, r, hr, _⟩ := hk
    have h1 : run.length ≤ 0 := le_trans (length_le_totalLen hrun) hf
    cases run with
    | nil => cases hr
    | cons x t => simp at h1
  | succ fuel ih =>
    intro runs hf k hk
    obtain ⟨run, hrun, r, hr, hkey⟩ := hk
    cases run with
    | nil => cases hr
    | cons x t =>
      have hx : x.key ∈ headKeys runs := headKeys_of_mem hrun
      obtain ⟨k0, hm⟩ := minKey?_isSome (List.ne_nil_of_mem hx)
      have hk0 : k0 ∈ headKeys runs := minKey?_mem hm
      obtain ⟨w, hb⟩ := bestAtFrom_isSome runs none (Or.inr hk0)
      have hba : bestAt k0 runs = some w := hb
      rw [mergeGo_cons_eq hm hba]
      by_cases hkk : k = k0
      · refine ⟨w, List.mem_cons_self _ _, ?_⟩
        rw [bestAtFrom_key runs none (by intro b hb0; cases hb0) w hb, hkk]
      · have hsurvive : r ∈ popOne k0 (x :: t) := by
          by_cases hxk : x.key = k0
          · rcases List.mem_cons.mp hr with rfl | hr'
            · exact absurd (hkey ▸ hxk : k = k0) hkk
            · rw [popOne, if_pos hxk]
              exact hr'
          · rw [popOne, if_neg hxk]
            exact hr
        have hfl : totalLen (popKey k0 runs) ≤ fuel := by
          have := popKey_totalLen_lt hk0
          omega
        obtain ⟨r', hr', hkey'⟩ :=
          ih (popKey k0 runs) hfl k
            ⟨popOne k0 (x :: t), List.mem_map_of_mem (popOne k0) hrun, r, hsurvive, hkey⟩
        exact ⟨r', List.mem_cons_of_mem w hr', hkey'⟩

lemma mergeRuns_complete {runs : List Run} (k : Key)
    (h : ∃ run ∈ runs, ∃ r ∈ run, r.key = k) :
    k ∈ (mergeRuns runs).map Record.key := by
  obtain ⟨r, hr, hkey⟩ := mergeGo_complete (totalLen runs) runs (le_refl _) k h
  exact List.mem_map.mpr ⟨r, hr, hkey⟩

/-! ## Double-ended iteration lemmas -/

lemma filterMap_id_replicate_none {α : Type} (n : ℕ) :
    (List.replicate n (none : Option α)).filterMap id = [] := by
  induction n with
  | zero => rfl
  | succ n ih => simp [List.replicate_succ, ih]

lemma runDE_nil_window {α : Type} (cs : List Bool) :
    runDE cs ([] : List α) = (List.replicate cs.length none, []) := by
  induction cs with
  | nil => rfl
  | cons c cs ih =>
    cases c <;> simp [runDE, ih, List.replicate_succ]

lemma eq_nil_or_append_single {α : Type} (xs : List α) :
    xs = [] ∨ ∃ l b, xs = l ++ [b] := by
  rcases List.eq_nil_or_concat xs with h | ⟨l, b, h⟩
  · exact Or.inl h
  · exact Or.inr ⟨l, b, by simpa using h⟩

lemma runDE_perm {α : Type} (cs : List Bool) :
    ∀ xs : List α, List.Perm (yieldsDE cs xs ++ (runDE cs xs).2) xs := by
  induction cs with
  | nil => intro xs; simp [yieldsDE, runDE]
  | cons c cs ih =>
    intro xs
    cases c
    · rcases eq_nil_or_append_single xs with rfl | ⟨l, b, rfl⟩
      · simp [yieldsDE, runDE, runDE_nil_window, filterMap_id_replicate_none]
      · have h1 : (l ++ [b]).getLast? = some b := List.getLast?_concat l
        have h2 : (l ++ [b]).dropLast = l := List.dropLast_concat
        simp only [runDE, h1, h2, yieldsDE, List.filterMap_cons, id]
        refine List.Perm.trans ?_ (List.perm_append_singleton b l).symm
        exact (ih l).cons b
    · cases xs with
      | nil => simp [yieldsDE, runDE, runDE_nil_window, filterMap_id_replicate_none]
      | cons x t =>
        simp only [runDE, List.head?_cons, List.tail_cons, yieldsDE,
          List.filterMap_cons, id]
        exact (ih t).cons x

lemma yieldsDE_all_true (n : ℕ) :
    ∀ xs : List Record, xs.length ≤ n →
    yieldsDE (List.replicate n true) xs = xs := by
  induction n with
  | zero =>
    intro xs h
    rw [List.length_eq_zero.mp (Nat.le_zero.mp h)]
    rfl
  | succ n ih =>
    intro xs h
    cases xs with
    | nil =>
      simp [yieldsDE, List.replicate_succ, runDE, runDE_nil_window,
        filterMap_id_replicate_none]
    | cons x t =>
      have ht : t.length ≤ n := by simpa using h
      have := ih t ht
      simp only [List.replicate_succ, yieldsDE, runDE, List.head?_cons,
        List.tail_cons, List.filterMap_cons, id] at this ⊢
      rw [this]

lemma yieldsDE_all_false (n : ℕ) :
    ∀ xs : List Record, xs.length ≤ n →
    yieldsDE (List.replicate n false) xs = xs.reverse := by
  induction n with
  | zero =>
    intro xs h
    rw [List.length_eq_zero.mp (Nat.le_zero.mp h)]
    rfl
  | succ n ih =>
    intro xs h
    rcases eq_nil_or_append_single xs with rfl | ⟨l, b, rfl⟩
    · simp [yieldsDE, List.replicate_succ, runDE, runDE_nil_window,
        filterMap_id_replicate_none]
    · have hl : l.length ≤ n := by
        rw [List.length_append] at h
        simpa using Nat.lt_succ_iff.mp (Nat.lt_of_lt_of_le (by simp) h)
      have hrec := ih l hl
      have h1 : (l ++ [b]).getLast? = some b := List.getLast?_concat l
      have h2 : (l ++ [b]).dropLast = l := List.dropLast_concat
      simp only [List.replicate_succ, yieldsDE, runDE, h1, h2,
        List.filterMap_cons, id] at hrec ⊢
      rw [hrec, List.reverse_append]
      rfl

lemma revCalls_replicate (n : ℕ) :
    revCalls (List.replicate n true) = List.replicate n false := by
  simp [revCalls, List.map_replicate]

/-! ## Snapshot lemmas -/

lemma newestVisibleFrom_le (t : ℕ) (k : Key) (st : List Record) :
    ∀ acc : Option Record, (∀ b, acc = some b → b.seqno ≤ t) →
    ∀ r, newestVisibleFrom t k acc st = some r → r.seqno ≤ t := by
  induction st with
  | nil =>
    intro acc hacc r h
    exact hacc r h
  | cons x rest ih =>
    intro acc hacc r h
    simp only [newestVisibleFrom] at h
    refine ih _ ?_ r h
    intro b hb
    by_cases hxk : x.key = k
    · rw [if_pos hxk] at hb
      by_cases hxt : x.seqno ≤ t
      · rw [if_pos hxt] at hb
        cases acc with
        | none =>
          injection hb with hb
          rw [← hb]; exact hxt
        | some b0 =>
          have hb' : (if b0.seqno ≤ x.seqno then some x else some b0) = some b := hb
          by_cases hbs : b0.seqno ≤ x.seqno
          · rw [if_pos hbs] at hb'; injection hb' with hb'; rw [← hb']; exact hxt
          · rw [if_neg hbs] at hb'; injection hb' with hb'; rw [← hb']
            exact hacc b0 rfl
      · rw [if_neg hxt] at hb
        exact hacc b hb
    · rw [if_neg hxk] at hb
      exact hacc b hb

/-! ## Theorems about the snapshot / merge-iterator / recovery claims -/

/-- C2: a snapshot at threshold `t` never exposes a record with seqno
greater than `t`; and in the end-to-end scenario of main.rs — insert "a" at
seqno s1, capture threshold t0 with s1 ≤ t0 < s2, insert "b" at seqno s2 —
the snapshot at t0 lists only "a" while the unfiltered live listing shows
"a" and "b". -/
theorem snapshot_visibility (t : ℕ) (st : List Record)
    (s1 t0 s2 : ℕ) (va vb : List ℕ) (h1 : s1 ≤ t0) (h2 : t0 < s2) :
    (∀ r ∈ snapshotRecords t st, r.seqno ≤ t) ∧
    snapshotKeys t0 (insertRec (insertRec [] [97] va s1) [98] vb s2) = [[97]] ∧
    liveKeys (insertRec (insertRec [] [97] va s1) [98] vb s2) = [[97], [98]] := by
  refine ⟨?_, ?_, ?_⟩
  · intro r hr
    obtain ⟨k, _, hnv⟩ := List.mem_filterMap.mp hr
    exact newestVisibleFrom_le t k st none (by intro b hb; cases hb) r hnv
  · have h2' : ¬ s2 ≤ t0 := by omega
    have hle : ([97] : Key) ≤ [98] := by decide
    simp [snapshotKeys, snapshotRecords, sortedKeys, insertRec, newestVisible,
      newestVisibleFrom, h1, h2', hle]
  · have hle : ([97] : Key) ≤ [98] := by decide
    simp [liveKeys, sortedKeys, insertRec, newestAny, newestAnyFrom, hle]

/-- Witness for `snapshot_visibility` at t = 5, s1 = 3, t0 = 5, s2 = 9 on
the two-record store of the scenario. -/
theorem snapshot_visibility_witness :
    (∀ r ∈ snapshotRecords 5 (insertRec (insertRec [] [97] [] 3) [98] [] 9),
       r.seqno ≤ 5) ∧
    snapshotKeys 5 (insertRec (insertRec [] [97] [] 3) [98] [] 9) = [[97]] ∧
    liveKeys (insertRec (insertRec [] [97] [] 3) [98] [] 9) = [[97], [98]] :=
  snapshot_visibility 5 (insertRec (insertRec [] [97] [] 3) [98] [] 9)
    3 5 9 [] [] (by decide) (by decide)

/-- C3: for runs that are each strictly sorted by key (however scrambled the
flush order that produced them), the merged forward iteration is strictly
ascending in key; in the concrete scrambled-flush scenario of
tree_disjoint_iter.rs (one run flushed from f, e, d and one from a, b, c)
the forward order is exactly a, b, c, d, e, f; and collecting the `rev()`
iterator equals the reversal of the full forward order. -/
theorem merge_iter_global_order (runs : List Run)
    (hs : ∀ run ∈ runs, List.Pairwise (fun a b : Record => a.key < b.key) run) :
    List.Pairwise (fun a b : Record => a.key < b.key) (mergeRuns runs) ∧
    (mergeRuns scenarioRuns).map Record.key =
      [[97], [98], [99], [100], [101], [102]] ∧
    collectFwdOfRev (mergeRuns runs) = (collectFwd (mergeRuns runs)).reverse := by
  refine ⟨mergeRuns_sorted hs, by decide, ?_⟩
  unfold collectFwdOfRev collectFwd
  rw [revCalls_replicate, yieldsDE_all_false _ _ (le_refl _),
    yieldsDE_all_true _ _ (le_refl _)]

/-- Witness for `merge_iter_global_order` at the scrambled-flush scenario
runs. -/
theorem merge_iter_global_order_witness :
    List.Pairwise (fun a b : Record => a.key < b.key) (mergeRuns scenarioRuns) ∧
    (mergeRuns scenarioRuns).map Record.key =
      [[97], [98], [99], [100], [101], [102]] ∧
    collectFwdOfRev (mergeRuns scenarioRuns) =
      (collectFwd (mergeRuns scenarioRuns)).reverse :=
  merge_iter_global_order scenarioRuns (by decide)

/-- C4: on the merged sequence of strictly sorted runs, every interleaving
of `next()` (`true`) and `next_back()` (`false`) consumes from the single
shared sequence — the yielded elements together with the untouched window
are a permutation of the whole sequence, so nothing is duplicated or
dropped; each distinct key occurs only once in that sequence; and once the
bounds have met (empty window) every further call from either end yields
`none`, permanently. -/
theorem pingpong_exactly_once (runs : List Run) (cs : List Bool)
    (hs : ∀ run ∈ runs, List.Pairwise (fun a b : Record => a.key < b.key) run) :
    List.Perm (yieldsDE cs (mergeRuns runs) ++ (runDE cs (mergeRuns runs)).2)
      (mergeRuns runs) ∧
    ((mergeRuns runs).map Record.key).Nodup ∧
    ((runDE cs (mergeRuns runs)).2 = [] →
      ∀ cs' : List Bool,
        runDE cs' ((runDE cs (mergeRuns runs)).2) =
          (List.replicate cs'.length none, [])) := by
  refine ⟨runDE_perm cs (mergeRuns runs), mergeRuns_keys_nodup hs, ?_⟩
  intro h cs'
  rw [h]
  exact runDE_nil_window cs'

/-- Witness for `pingpong_exactly_once`: the test's ping-pong pattern
next, next_back, next, next_back, next, next_back on the scenario runs. -/
theorem pingpong_exactly_once_witness :
    List.Perm
      (yieldsDE [true, false, true, false, true, false] (mergeRuns scenarioRuns) ++
        (runDE [true, false, true, false, true, false] (mergeRuns scenarioRuns)).2)
      (mergeRuns scenarioRuns) ∧
    ((mergeRuns scenarioRuns).map Record.key).Nodup :=
  ⟨(pingpong_exactly_once scenarioRuns [true, false, true, false, true, false]
      (by decide)).1,
   (pingpong_exactly_once scenarioRuns [true, false, true, false, true, false]
      (by decide)).2.1⟩

/-- C8: opening a partition from an absolute, canonicalized path resolves
independently of the working directory, and any number of reopen/close
cycles from any sequence of working directories observes the identical
visible key list each time while leaving the persisted state unchanged; with
strictly sorted persisted runs that key list has no duplicates and misses no
persisted key. -/
theorem reopen_idempotent (fs : DiskState) (cwds : List (List String))
    (comps : List String) (runs : List Run)
    (hlk : fs.parts.lookup comps = some runs)
    (hs : ∀ run ∈ runs, List.Pairwise (fun a b : Record => a.key < b.key) run) :
    (reopenCycles fs cwds (.absolute comps)).1 =
      List.replicate cwds.length (some ((mergeRuns runs).map Record.key)) ∧
    (reopenCycles fs cwds (.absolute comps)).2 = fs ∧
    ((mergeRuns runs).map Record.key).Nodup ∧
    ∀ k : Key, (∃ run ∈ runs, ∃ r ∈ run, r.key = k) →
      k ∈ (mergeRuns runs).map Record.key := by
  have hopen : ∀ cwd, openPartition fs cwd (MPath.absolute comps) =
      (some ((mergeRuns runs).map Record.key), fs) := by
    intro cwd
    simp [openPartition, canonicalize, hlk]
  have hcyc : ∀ cwds' : List (List String),
      (reopenCycles fs cwds' (.absolute comps)).1 =
        List.replicate cwds'.length (some ((mergeRuns runs).map Record.key)) ∧
      (reopenCycles fs cwds' (.absolute comps)).2 = fs := by
    intro cwds'
    induction cwds' with
    | nil => exact ⟨rfl, rfl⟩
    | cons cwd rest ih =>
      simp [reopenCycles, hopen, ih.1, ih.2, List.replicate_succ]
  exact ⟨(hcyc cwds).1, (hcyc cwds).2, mergeRuns_keys_nodup hs,
    fun k hk => mergeRuns_complete k hk⟩

/-- Witness for `reopen_idempotent`: one persisted partition holding a
single sorted run of two records, reopened from two different working
directories. -/
theorem reopen_idempotent_witness :
    (reopenCycles
        (DiskState.mk [(["data", "part"],
          [[Record.mk [97] 0 (some []), Record.mk [98] 0 (some [])]])])
        [["wd1"], ["wd2"]] (.absolute ["data", "part"])).1 =
      List.replicate 2 (some [[97], [98]]) ∧
    (reopenCycles
        (DiskState.mk [(["data", "part"],
          [[Record.mk [97] 0 (some []), Record.mk [98] 0 (some [])]])])
        [["wd1"], ["wd2"]] (.absolute ["data", "part"])).2 =
      DiskState.mk [(["data", "part"],
        [[Record.mk [97] 0 (some []), Record.mk [98] 0 (some [])]])] := by
  have h := reopen_idempotent
    (DiskState.mk [(["data", "part"],
      [[Record.mk [97] 0 (some []), Record.mk [98] 0 (some [])]])])
    [["wd1"], ["wd2"]] ["data", "part"]
    [[Record.mk [97] 0 (some []), Record.mk [98] 0 (some [])]]
    rfl (by decide)
  refine ⟨?_, h.2.1⟩
  rw [h.1]
  rfl

end FjallClocks
